import Mathlib

/-!
Verification development for the power-meter-logger repository.

The source is an Arduino sketch that passively taps the serial bus between a
Peacefair power meter's microcontroller and its TM1621B display driver.  An
interrupt-driven bit sampler assembles 17-bit words into a 32-slot ring
buffer (read_buffer); process_data_buffer scans that buffer for the sixteen
command-5 packets with addresses 0,2,...,30 and stores their masked data
bytes into the 16-slot data_buffer; get_voltage / get_current / get_power /
get_energy decode data_buffer slots through two seven-segment lookup tables.

Machine integers are modelled as Nat (all quantities involved stay far below
2^32, and the bit masks cap every stored value).  The C float results are
modelled with exact rational arithmetic: the only float operations performed
are division of a small integer accumulator by 100.0 or 10.0, and the claims
speak about the exact decimal values these denote.

To reason about which data_buffer cells the scan mutates, the embedding of
process_data_buffer first computes the ordered list of (index, value) writes
the C loop performs into data_buffer (processWrites) and then applies them
in order (applyWrites); the pair is packaged as process_data_buffer.
-/

namespace PowerMeter

/-- Command field of a captured word: C source computes
(read_buffer[i] & 0x0001C000) >> 14. -/
def cmdOf (w : Nat) : Nat := (w &&& 0x0001C000) >>> 14

/-- Address field of a captured word: C source computes
(read_buffer[i] & 0x00003F00) >> 8. -/
def addrOf (w : Nat) : Nat := (w &&& 0x00003F00) >>> 8

/-- Mask applied when storing a packet's data byte into data_buffer:
addresses up to 14 are masked with 0x77, later addresses with 0xFF. -/
def maskData (w a : Nat) : Nat :=
  if a ≤ 14 then w &&& 0x00000077 else w &&& 0x000000FF

/-- Core of process_data_buffer: walk the remaining read_buffer slots
carrying the loop state (expected_addr, data_start, data_idx) and return
the success flag together with the ordered list of (data_idx, value)
stores the C loop performs into data_buffer. -/
def processWrites : List Nat → Nat → Bool → Nat → Bool × List (Nat × Nat)
  | [], _, _, _ => (false, [])
  | w :: rest, exp, started, idx =>
    if cmdOf w = 5 then
      if started = true ∨ addrOf w = 0 then
        if addrOf w ≠ exp then (false, [])
        else if addrOf w = 30 then (true, [(idx, maskData w (addrOf w))])
        else
          let r := processWrites rest (exp + 2) true (idx + 1)
          (r.1, (idx, maskData w (addrOf w)) :: r.2)
      else processWrites rest exp started idx
    else processWrites rest exp started idx

/-- Apply a list of (index, value) stores to data_buffer in order. -/
def applyWrites (db : List Nat) (ws : List (Nat × Nat)) : List Nat :=
  ws.foldl (fun d p => d.set p.1 p.2) db

/-- Embedding of process_data_buffer: given the 32-slot read_buffer contents
and the prior data_buffer contents, return the success flag and the
data_buffer contents after the scan. -/
def process_data_buffer (buf db : List Nat) : Bool × List Nat :=
  let r := processWrites buf 0 false 0
  (r.1, applyWrites db r.2)

/-- Segment-pattern row of data_digit_lut_1 (voltage/current digits);
row 0 of the C table is just the digits 0..9, so only the pattern row is
kept and the digit value is the index. -/
def data_digit_lut_1 : List Nat := [117, 5, 83, 23, 39, 54, 118, 21, 119, 55]

/-- Segment-pattern row of data_digit_lut_2 (power/energy digits). -/
def data_digit_lut_2 : List Nat := [125, 5, 94, 79, 39, 107, 123, 69, 127, 111]

/-- Voltage accumulator: the nested loops of get_voltage.  For i in 0..3 and
j in 0..9, when data_buffer[i] equals lut1 pattern j the loop adds
j * 10^(3-i). -/
def voltAcc (d : List Nat) : Nat :=
  (List.range 4).foldl (fun acc i =>
    (List.range 10).foldl (fun a j =>
      if d.getD i 0 = data_digit_lut_1.getD j 0 then a + j * 10 ^ (3 - i) else a) acc) 0

/-- Current accumulator: the nested loops of get_current over slots 4..7 with
exponent 7 - i. -/
def currAcc (d : List Nat) : Nat :=
  (List.range' 4 4).foldl (fun acc i =>
    (List.range 10).foldl (fun a j =>
      if d.getD i 0 = data_digit_lut_1.getD j 0 then a + j * 10 ^ (7 - i) else a) acc) 0

/-- Power accumulator: the nested loops of get_power over slots 8..11, where
the slot value is shifted right by one before the table comparison. -/
def powAcc (d : List Nat) : Nat :=
  (List.range' 8 4).foldl (fun acc i =>
    (List.range 10).foldl (fun a j =>
      if d.getD i 0 >>> 1 = data_digit_lut_2.getD j 0 then a + j * 10 ^ (11 - i) else a) acc) 0

/-- Energy accumulator: the nested loops of get_energy over slots 12..15 with
the same shifted comparison. -/
def enAcc (d : List Nat) : Nat :=
  (List.range' 12 4).foldl (fun acc i =>
    (List.range 10).foldl (fun a j =>
      if d.getD i 0 >>> 1 = data_digit_lut_2.getD j 0 then a + j * 10 ^ (15 - i) else a) acc) 0

/-- Embedding of get_voltage: sentinel -1.0 on extraction failure, otherwise
the accumulator divided by 100.0. -/
def get_voltage (buf db : List Nat) : ℚ :=
  let r := process_data_buffer buf db
  if r.1 then (voltAcc r.2 : ℚ) / 100 else -1

/-- Embedding of get_current. -/
def get_current (buf db : List Nat) : ℚ :=
  let r := process_data_buffer buf db
  if r.1 then (currAcc r.2 : ℚ) / 100 else -1

/-- Embedding of get_power: the low bit of data_buffer[10] selects division
by 10.0 of the accumulator. -/
def get_power (buf db : List Nat) : ℚ :=
  let r := process_data_buffer buf db
  if r.1 then
    if r.2.getD 10 0 &&& 0x01 ≠ 0 then (powAcc r.2 : ℚ) / 10 else (powAcc r.2 : ℚ)
  else -1

/-- Embedding of get_energy: the low bit of data_buffer[15] selects the
times-1000 kilo scaling; the result is the int32_t return value. -/
def get_energy (buf db : List Nat) : Int :=
  let r := process_data_buffer buf db
  if r.1 then
    ((if r.2.getD 15 0 &&& 0x01 ≠ 0 then enAcc r.2 * 1000 else enAcc r.2 : Nat) : Int)
  else -1

/-- Bit sampler: the state change of clock_isr folded over the data-line
levels seen on the rising clock edges of one chip-select-low interval.
The word starts from the value select_isr reset to 0 and the bit position
from 0; each edge ORs the level shifted left by (16 - position) into the
word and advances the position. -/
def sampleRun : List Nat → Nat → Nat → Nat
  | [], w, _ => w
  | b :: bs, w, pos => sampleRun bs (w ||| (b <<< (16 - pos))) (pos + 1)

/-- Captured word produced by one chip-select-low interval whose rising
clock edges carried the given data-line levels. -/
def sampleWord (bits : List Nat) : Nat := sampleRun bits 0 0

/-- Closed form of the sampler: the OR of each level b_i shifted left by
(16 - (p + i)), where p is the starting bit position. -/
def ofBitsFrom : Nat → List Nat → Nat
  | _, [] => 0
  | p, b :: bs => (b <<< (16 - p)) ||| ofBitsFrom (p + 1) bs

def digitOf (lut : List Nat) (v : Nat) : Nat :=
  ((List.range 10).map (fun j => if v = lut.getD j 0 then j else 0)).sum

/-- Mid-scan state tracker: returns some (expected_addr, data_start, data_idx,
writes) when the loop consumes the whole list without breaking, and none when
the loop breaks inside the list (address mismatch or address 30 accepted). -/
def scanMid : List Nat → Nat → Bool → Nat → Option (Nat × Bool × Nat × List (Nat × Nat))
  | [], exp, started, idx => some (exp, started, idx, [])
  | w :: rest, exp, started, idx =>
    if cmdOf w = 5 then
      if started = true ∨ addrOf w = 0 then
        if addrOf w ≠ exp then none
        else if addrOf w = 30 then none
        else
          (scanMid rest (exp + 2) true (idx + 1)).map
            (fun r => (r.1, r.2.1, r.2.2.1, (idx, maskData w (addrOf w)) :: r.2.2.2))
      else scanMid rest exp started idx
    else scanMid rest exp started idx

/-- Valid command-5 run: Run a l ms holds when, scanning l in order, the
command-5 words carry exactly the addresses a, a+2, ..., 30 in increasing
order (no other command-5 word in between), and ms lists their data bytes
masked as the extractor stores them.  Words after the address-30 word are
unconstrained, since the scan breaks there. -/
inductive Run : Nat → List Nat → List Nat → Prop
  | last (w : Nat) (post : List Nat) (hc : cmdOf w = 5) (ha : addrOf w = 30) :
      Run 30 (w :: post) [maskData w 30]
  | cons (a w : Nat) (rest : List Nat) (ms : List Nat) (h30 : a ≠ 30)
      (hc : cmdOf w = 5) (ha : addrOf w = a) (hr : Run (a + 2) rest ms) :
      Run a (w :: rest) (maskData w a :: ms)
  | skip (a w : Nat) (rest : List Nat) (ms : List Nat) (hc : cmdOf w ≠ 5)
      (hr : Run a rest ms) :
      Run a (w :: rest) ms

/-- Checker for Run: computes the masked data list when the word list is a
valid run for the given starting address. -/
def runMs : Nat → List Nat → Option (List Nat)
  | _, [] => none
  | a, w :: rest =>
    if cmdOf w = 5 then
      if addrOf w = a then
        if a = 30 then some [maskData w a]
        else (runMs (a + 2) rest).map (maskData w a :: ·)
      else none
    else (runMs a rest).map id

/-- Write list with consecutive indices starting at i. -/
def withIdx : Nat → List Nat → List (Nat × Nat)
  | _, [] => []
  | i, m :: ms => (i, m) :: withIdx (i + 1) ms

/-- Command-5 captured word carrying address a and data byte v, as the bit
sampler would assemble it. -/
def word5 (a v : Nat) : Nat := (5 <<< 14) ||| (a <<< 8) ||| v

/-- Full 16-packet capture: voltage digits 1 2 0 5, current digits 0 1 2 3,
power digits 0 4 5 6 with the decimal-point flag set on slot 10, energy
digits 0 7 8 9 with the kilo flag clear on slot 15. -/
def bufDoc : List Nat :=
  [word5 0 5, word5 2 83, word5 4 117, word5 6 54,
   word5 8 117, word5 10 5, word5 12 83, word5 14 23,
   word5 16 250, word5 18 78, word5 20 215, word5 22 246,
   word5 24 250, word5 26 138, word5 28 254, word5 30 222]

/-- Digit slots extracted from bufDoc. -/
def msDoc : List Nat :=
  [5, 83, 117, 54, 117, 5, 83, 23, 250, 78, 215, 246, 250, 138, 254, 222]

/-- Variant of bufDoc whose power decimal-point flag (bit 0 of slot 10) is
clear. -/
def bufP0 : List Nat :=
  [word5 0 5, word5 2 83, word5 4 117, word5 6 54,
   word5 8 117, word5 10 5, word5 12 83, word5 14 23,
   word5 16 250, word5 18 78, word5 20 214, word5 22 246,
   word5 24 250, word5 26 138, word5 28 254, word5 30 222]

/-- Digit slots extracted from bufP0. -/
def msP0 : List Nat :=
  [5, 83, 117, 54, 117, 5, 83, 23, 250, 78, 214, 246, 250, 138, 254, 222]

/-- Variant of bufDoc whose energy kilo flag (bit 0 of slot 15) is set. -/
def bufE1 : List Nat :=
  [word5 0 5, word5 2 83, word5 4 117, word5 6 54,
   word5 8 117, word5 10 5, word5 12 83, word5 14 23,
   word5 16 250, word5 18 78, word5 20 215, word5 22 246,
   word5 24 250, word5 26 138, word5 28 254, word5 30 223]

/-- Digit slots extracted from bufE1. -/
def msE1 : List Nat :=
  [5, 83, 117, 54, 117, 5, 83, 23, 250, 78, 215, 246, 250, 138, 254, 223]

/-- Capture whose voltage slots 0..3 hold the table entries 117, 5, 83, 23
and whose remaining slots hold zero. -/
def bufC3 : List Nat :=
  [word5 0 117, word5 2 5, word5 4 83, word5 6 23,
   word5 8 0, word5 10 0, word5 12 0, word5 14 0,
   word5 16 0, word5 18 0, word5 20 0, word5 22 0,
   word5 24 0, word5 26 0, word5 28 0, word5 30 0]

/-- Digit slots extracted from bufC3. -/
def msC3 : List Nat := [117, 5, 83, 23, 0, 0, 0, 0, 0, 0, 0, 0, 0, 0, 0, 0]

/-- All-zero initial data_buffer. -/
def dbZero : List Nat := List.replicate 16 0

/-- Data-line levels of a full 17-edge transaction that clocks in only ones. -/
def bits17 : List Nat := List.replicate 17 1

/-- Statement that every frame-buffer and data_buffer state keeps
get_voltage strictly below 120.50; it refutes the existence of any capture
on which get_voltage returns 120.50. -/
def voltage_below_120_50 : Prop :=
  ∀ (buf db : List Nat), get_voltage buf db < 120.50

theorem foldl_add_map (g : Nat → Nat) :
    ∀ (l : List Nat) (a : Nat), l.foldl (fun b j => b + g j) a = a + (l.map g).sum := by
  intro l
  induction l with
  | nil => simp
  | cons x xs ih => intro a; simp only [List.foldl_cons, List.map_cons, List.sum_cons, ih,
      Nat.add_assoc]

theorem inner_eq (v m : Nat) (lut : List Nat) (a : Nat) :
    (List.range 10).foldl (fun b j => if v = lut.getD j 0 then b + j * m else b) a
      = a + digitOf lut v * m := by
  have hf : (fun (b j : Nat) => if v = lut.getD j 0 then b + j * m else b)
      = fun b j => b + (fun j => (if v = lut.getD j 0 then j else 0) * m) j := by
    funext b j
    show (if v = lut.getD j 0 then b + j * m else b)
      = b + (if v = lut.getD j 0 then j else 0) * m
    by_cases h : v = lut.getD j 0
    · rw [if_pos h, if_pos h]
    · rw [if_neg h, if_neg h, Nat.zero_mul, Nat.add_zero]
  rw [hf, foldl_add_map, List.sum_map_mul_right]
  rfl

theorem voltAcc_eq (d : List Nat) :
    voltAcc d = digitOf data_digit_lut_1 (d.getD 0 0) * 1000
      + digitOf data_digit_lut_1 (d.getD 1 0) * 100
      + digitOf data_digit_lut_1 (d.getD 2 0) * 10
      + digitOf data_digit_lut_1 (d.getD 3 0) := by
  simp only [voltAcc, show List.range 4 = [0, 1, 2, 3] from rfl, List.foldl_cons, List.foldl_nil]
  rw [inner_eq, inner_eq, inner_eq, inner_eq]
  norm_num

theorem currAcc_eq (d : List Nat) :
    currAcc d = digitOf data_digit_lut_1 (d.getD 4 0) * 1000
      + digitOf data_digit_lut_1 (d.getD 5 0) * 100
      + digitOf data_digit_lut_1 (d.getD 6 0) * 10
      + digitOf data_digit_lut_1 (d.getD 7 0) := by
  simp only [currAcc, show List.range' 4 4 = [4, 5, 6, 7] from rfl, List.foldl_cons,
    List.foldl_nil]
  rw [inner_eq, inner_eq, inner_eq, inner_eq]
  norm_num

theorem powAcc_eq (d : List Nat) :
    powAcc d = digitOf data_digit_lut_2 (d.getD 8 0 >>> 1) * 1000
      + digitOf data_digit_lut_2 (d.getD 9 0 >>> 1) * 100
      + digitOf data_digit_lut_2 (d.getD 10 0 >>> 1) * 10
      + digitOf data_digit_lut_2 (d.getD 11 0 >>> 1) := by
  simp only [powAcc, show List.range' 8 4 = [8, 9, 10, 11] from rfl, List.foldl_cons,
    List.foldl_nil]
  rw [inner_eq, inner_eq, inner_eq, inner_eq]
  norm_num

theorem enAcc_eq (d : List Nat) :
    enAcc d = digitOf data_digit_lut_2 (d.getD 12 0 >>> 1) * 1000
      + digitOf data_digit_lut_2 (d.getD 13 0 >>> 1) * 100
      + digitOf data_digit_lut_2 (d.getD 14 0 >>> 1) * 10
      + digitOf data_digit_lut_2 (d.getD 15 0 >>> 1) := by
  simp only [enAcc, show List.range' 12 4 = [12, 13, 14, 15] from rfl, List.foldl_cons,
    List.foldl_nil]
  rw [inner_eq, inner_eq, inner_eq, inner_eq]
  norm_num

theorem digitOf_lut1_le (v : Nat) : digitOf data_digit_lut_1 v ≤ 9 := by
  by_cases h0 : v = 117
  · subst h0; decide
  by_cases h1 : v = 5
  · subst h1; decide
  by_cases h2 : v = 83
  · subst h2; decide
  by_cases h3 : v = 23
  · subst h3; decide
  by_cases h4 : v = 39
  · subst h4; decide
  by_cases h5 : v = 54
  · subst h5; decide
  by_cases h6 : v = 118
  · subst h6; decide
  by_cases h7 : v = 21
  · subst h7; decide
  by_cases h8 : v = 119
  · subst h8; decide
  by_cases h9 : v = 55
  · subst h9; decide
  have : digitOf data_digit_lut_1 v = 0 := by
    simp only [digitOf, data_digit_lut_1, show List.range 10 = [0,1,2,3,4,5,6,7,8,9] from rfl,
      List.map_cons, List.map_nil, List.sum_cons, List.sum_nil]
    norm_num [List.getD, h0, h1, h2, h3, h4, h5, h6, h7, h8, h9]
  omega

theorem digitOf_lut2_le (v : Nat) : digitOf data_digit_lut_2 v ≤ 9 := by
  by_cases h0 : v = 125
  · subst h0; decide
  by_cases h1 : v = 5
  · subst h1; decide
  by_cases h2 : v = 94
  · subst h2; decide
  by_cases h3 : v = 79
  · subst h3; decide
  by_cases h4 : v = 39
  · subst h4; decide
  by_cases h5 : v = 107
  · subst h5; decide
  by_cases h6 : v = 123
  · subst h6; decide
  by_cases h7 : v = 69
  · subst h7; decide
  by_cases h8 : v = 127
  · subst h8; decide
  by_cases h9 : v = 111
  · subst h9; decide
  have : digitOf data_digit_lut_2 v = 0 := by
    simp only [digitOf, data_digit_lut_2, show List.range 10 = [0,1,2,3,4,5,6,7,8,9] from rfl,
      List.map_cons, List.map_nil, List.sum_cons, List.sum_nil]
    norm_num [List.getD, h0, h1, h2, h3, h4, h5, h6, h7, h8, h9]
  omega

theorem voltAcc_le (d : List Nat) : voltAcc d ≤ 9999 := by
  rw [voltAcc_eq]
  have h0 := digitOf_lut1_le (d.getD 0 0)
  have h1 := digitOf_lut1_le (d.getD 1 0)
  have h2 := digitOf_lut1_le (d.getD 2 0)
  have h3 := digitOf_lut1_le (d.getD 3 0)
  omega

theorem currAcc_le (d : List Nat) : currAcc d ≤ 9999 := by
  rw [currAcc_eq]
  have h0 := digitOf_lut1_le (d.getD 4 0)
  have h1 := digitOf_lut1_le (d.getD 5 0)
  have h2 := digitOf_lut1_le (d.getD 6 0)
  have h3 := digitOf_lut1_le (d.getD 7 0)
  omega

theorem processWrites_append_some :
    ∀ (p : List Nat) (exp : Nat) (started : Bool) (idx : Nat) (e' : Nat) (s' : Bool)
      (i' : Nat) (ws : List (Nat × Nat)) (q : List Nat),
      scanMid p exp started idx = some (e', s', i', ws) →
      processWrites (p ++ q) exp started idx
        = ((processWrites q e' s' i').1, ws ++ (processWrites q e' s' i').2) := by
  intro p
  induction p with
  | nil =>
    intro exp started idx e' s' i' ws q h
    simp only [scanMid, Option.some.injEq, Prod.mk.injEq] at h
    obtain ⟨h1, h2, h3, h4⟩ := h
    subst h1; subst h2; subst h3; subst h4
    simp
  | cons w rest ih =>
    intro exp started idx e' s' i' ws q h
    simp only [scanMid] at h
    simp only [List.cons_append, processWrites, List.append_eq]
    by_cases hc : cmdOf w = 5
    · simp only [if_pos hc] at h ⊢
      by_cases hs : started = true ∨ addrOf w = 0
      · simp only [if_pos hs] at h ⊢
        by_cases ha : addrOf w ≠ exp
        · simp only [if_pos ha] at h
          exact Option.noConfusion h
        · simp only [if_neg ha] at h ⊢
          by_cases h30 : addrOf w = 30
          · simp only [if_pos h30] at h
            exact Option.noConfusion h
          · simp only [if_neg h30] at h ⊢
            cases hmid : scanMid rest (exp + 2) true (idx + 1) with
            | none => rw [hmid] at h; exact absurd h (by simp)
            | some r =>
              rw [hmid] at h
              simp only [Option.map_some', Option.some.injEq, Prod.mk.injEq] at h
              obtain ⟨he, hs2, hi, hw⟩ := h
              have hr' : r = (e', s', i', r.2.2.2) := by
                rw [← he, ← hs2, ← hi]
              have hih := ih (exp + 2) true (idx + 1) e' s' i' r.2.2.2 q
                (hmid.trans (congrArg some hr'))
              rw [hih, ← hw]
              simp
      · simp only [if_neg hs] at h ⊢
        exact ih _ _ _ _ _ _ _ _ h
    · simp only [if_neg hc] at h ⊢
      exact ih _ _ _ _ _ _ _ _ h

theorem processWrites_append_none :
    ∀ (p : List Nat) (exp : Nat) (started : Bool) (idx : Nat) (q : List Nat),
      scanMid p exp started idx = none →
      processWrites (p ++ q) exp started idx = processWrites p exp started idx := by
  intro p
  induction p with
  | nil => intro exp started idx q h; simp [scanMid] at h
  | cons w rest ih =>
    intro exp started idx q h
    simp only [scanMid] at h
    simp only [List.cons_append, processWrites, List.append_eq]
    by_cases hc : cmdOf w = 5
    · simp only [if_pos hc] at h ⊢
      by_cases hs : started = true ∨ addrOf w = 0
      · simp only [if_pos hs] at h ⊢
        by_cases ha : addrOf w ≠ exp
        · simp only [if_pos ha]
        · simp only [if_neg ha] at h ⊢
          by_cases h30 : addrOf w = 30
          · simp only [if_pos h30]
          · simp only [if_neg h30] at h ⊢
            have hmid : scanMid rest (exp + 2) true (idx + 1) = none := by
              cases hmid : scanMid rest (exp + 2) true (idx + 1) with
              | none => rfl
              | some r => rw [hmid] at h; simp at h
            rw [ih _ _ _ _ hmid]
      · simp only [if_neg hs] at h ⊢
        exact ih _ _ _ _ h
    · simp only [if_neg hc] at h ⊢
      exact ih _ _ _ _ h

theorem runMs_sound : ∀ (l : List Nat) (a : Nat) (ms : List Nat),
    runMs a l = some ms → Run a l ms := by
  intro l
  induction l with
  | nil => intro a ms h; simp [runMs] at h
  | cons w rest ih =>
    intro a ms h
    simp only [runMs] at h
    by_cases hc : cmdOf w = 5
    · simp only [if_pos hc] at h
      by_cases ha : addrOf w = a
      · simp only [if_pos ha] at h
        by_cases h30 : a = 30
        · simp only [if_pos h30] at h
          simp only [Option.some.injEq] at h
          subst h30
          rw [← h]
          exact Run.last w rest hc ha
        · simp only [if_neg h30] at h
          cases hm : runMs (a + 2) rest with
          | none => rw [hm] at h; exact Option.noConfusion h
          | some ms2 =>
            rw [hm] at h
            simp only [Option.map_some', Option.some.injEq] at h
            rw [← h]
            exact Run.cons a w rest ms2 h30 hc ha (ih (a + 2) ms2 hm)
      · simp only [if_neg ha] at h
        exact Option.noConfusion h
    · simp only [if_neg hc, Option.map_id] at h
      exact Run.skip a w rest ms hc (ih a ms h)

theorem run_addr_even_le : ∀ {a : Nat} {l ms : List Nat}, Run a l ms →
    a % 2 = 0 ∧ a ≤ 30 ∧ ms.length = (32 - a) / 2 := by
  intro a l ms h
  induction h with
  | last w post hc ha => simp
  | cons a w rest ms h30 hc ha hr ih =>
    obtain ⟨h1, h2, h3⟩ := ih
    refine ⟨by omega, by omega, ?_⟩
    simp only [List.length_cons, h3]
    omega
  | skip a w rest ms hc hr ih => exact ih

theorem processWrites_run : ∀ {a : Nat} {l ms : List Nat}, Run a l ms →
    ∀ (i : Nat), processWrites l a true i = (true, withIdx i ms) := by
  intro a l ms h
  induction h with
  | last w post hc ha =>
    intro i
    simp only [processWrites, if_pos hc, ha]
    norm_num [withIdx]
  | cons a w rest ms h30 hc ha hr ih =>
    intro i
    simp only [processWrites, if_pos hc, ha]
    have hne : ¬(a ≠ a) := by omega
    simp only [if_neg hne, if_neg h30, or_true, if_pos (Or.inl rfl)]
    rw [ih (i + 1)]
    simp [withIdx]
  | skip a w rest ms hc hr ih =>
    intro i
    simp only [processWrites, if_neg hc]
    exact ih i

theorem processWrites_run_start : ∀ {l ms : List Nat}, Run 0 l ms →
    ∀ (i : Nat), processWrites l 0 false i = (true, withIdx i ms) := by
  intro l ms h
  generalize ha : (0 : Nat) = a at h
  induction h with
  | last w post hc ha2 => omega
  | cons a w rest ms h30 hc ha2 hr ih =>
    intro i
    subst ha
    simp only [processWrites, if_pos hc, ha2]
    have hne : ¬((0 : Nat) ≠ 0) := by omega
    have h030 : (0 : Nat) ≠ 30 := by omega
    simp only [if_pos (Or.inr rfl), if_neg hne, if_neg h030]
    rw [processWrites_run hr (i + 1)]
    simp [withIdx]
  | skip a w rest ms hc hr ih =>
    intro i
    subst ha
    simp only [processWrites, if_neg hc]
    exact ih rfl i

theorem processWrites_preSkip : ∀ (p : List Nat) (q : List Nat) (exp i : Nat),
    (∀ w ∈ p, ¬(cmdOf w = 5 ∧ addrOf w = 0)) →
    processWrites (p ++ q) exp false i = processWrites q exp false i := by
  intro p
  induction p with
  | nil => intro q exp i _; rfl
  | cons w rest ih =>
    intro q exp i hp
    have hw := hp w (List.mem_cons_self w rest)
    have hrest : ∀ x ∈ rest, ¬(cmdOf x = 5 ∧ addrOf x = 0) := by
      intro x hx; exact hp x (List.mem_cons_of_mem w hx)
    simp only [List.cons_append, processWrites]
    by_cases hc : cmdOf w = 5
    · have ha : addrOf w ≠ 0 := by
        intro h0; exact hw ⟨hc, h0⟩
      have hcond : ¬(false = true ∨ addrOf w = 0) := by
        simp [ha]
      simp only [if_pos hc, if_neg hcond]
      exact ih q exp i hrest
    · simp only [if_neg hc]
      exact ih q exp i hrest

theorem applyWrites_withIdx : ∀ (ms pre suf : List Nat), ms.length ≤ suf.length →
    applyWrites (pre ++ suf) (withIdx pre.length ms) = pre ++ ms ++ suf.drop ms.length := by
  intro ms
  induction ms with
  | nil => intro pre suf _; simp [applyWrites, withIdx]
  | cons m ms ih =>
    intro pre suf hlen
    cases suf with
    | nil => simp at hlen
    | cons s suf2 =>
      simp only [withIdx, applyWrites, List.foldl_cons]
      have hset : (pre ++ s :: suf2).set pre.length m = pre ++ m :: suf2 := by
        rw [List.set_append_right _ _ (Nat.le_refl _)]
        simp
      rw [hset]
      have := ih (pre ++ [m]) suf2 (by simpa using hlen)
      simp only [List.length_append, List.length_cons, List.length_nil] at this
      simp only [applyWrites] at this ⊢
      have harr : pre ++ m :: suf2 = (pre ++ [m]) ++ suf2 := by simp
      have hidx : pre.length + 1 = pre.length + 1 := rfl
      rw [harr]
      rw [show pre.length + 1 = (pre ++ [m]).length by simp] at this ⊢
      rw [this]
      simp [List.length_cons]

theorem sampleRun_eq : ∀ (bs : List Nat) (w p : Nat),
    sampleRun bs w p = w ||| ofBitsFrom p bs := by
  intro bs
  induction bs with
  | nil => intro w p; simp [sampleRun, ofBitsFrom]
  | cons b rest ih =>
    intro w p
    simp only [sampleRun, ofBitsFrom, ih, Nat.or_assoc]

theorem sampleWord_eq (bits : List Nat) : sampleWord bits = ofBitsFrom 0 bits := by
  simp [sampleWord, sampleRun_eq]

theorem ofBitsFrom_lt : ∀ (bs : List Nat) (p : Nat), 1 ≤ p →
    (∀ b ∈ bs, b ≤ 1) → ofBitsFrom p bs < 2 ^ 16 := by
  intro bs
  induction bs with
  | nil => intro p _ _; simp [ofBitsFrom]
  | cons b rest ih =>
    intro p hp hb
    have hb1 : b ≤ 1 := hb b (List.mem_cons_self b rest)
    have hrest : ∀ x ∈ rest, x ≤ 1 := fun x hx => hb x (List.mem_cons_of_mem b hx)
    simp only [ofBitsFrom]
    apply Nat.or_lt_two_pow
    · calc b <<< (16 - p) ≤ 1 <<< (16 - p) := by
            simp only [Nat.shiftLeft_eq]
            exact Nat.mul_le_mul_right _ hb1
        _ < 2 ^ 16 := by
            simp only [Nat.shiftLeft_eq, Nat.one_mul]
            exact Nat.pow_lt_pow_right (by omega) (by omega)
    · exact ih (p + 1) (by omega) hrest

theorem ofBitsFrom_testBit_zero : ∀ (bs : List Nat) (p : Nat),
    bs.length + p ≤ 16 → (ofBitsFrom p bs).testBit 0 = false := by
  intro bs
  induction bs with
  | nil => intro p _; simp [ofBitsFrom]
  | cons b rest ih =>
    intro p hlen
    simp only [ofBitsFrom, Nat.testBit_or]
    have h1 : (b <<< (16 - p)).testBit 0 = false := by
      rw [Nat.testBit_shiftLeft]
      have : ¬(16 - p ≤ 0) := by
        simp only [List.length_cons] at hlen
        omega
      simp [this]
    have h2 : (ofBitsFrom (p + 1) rest).testBit 0 = false := by
      apply ih
      simp only [List.length_cons] at hlen
      omega
    rw [h1, h2]
    rfl

theorem sampleWord_testBit16 (b : Nat) (rest : List Nat) (hb : b ≤ 1)
    (hrest : ∀ x ∈ rest, x ≤ 1) :
    (sampleWord (b :: rest)).testBit 16 = decide (b = 1) := by
  rw [sampleWord_eq]
  simp only [ofBitsFrom, Nat.testBit_or]
  have h2 : (ofBitsFrom 1 rest).testBit 16 = false :=
    Nat.testBit_eq_false_of_lt (ofBitsFrom_lt rest 1 (Nat.le_refl 1) hrest)
  rw [h2, Bool.or_false]
  have hb01 : b = 0 ∨ b = 1 := by omega
  rcases hb01 with h | h <;> subst h <;> decide

theorem ofBitsFrom_testBit_zero_full : ∀ (bs : List Nat) (p : Nat),
    p + bs.length = 17 → (∀ b ∈ bs, b ≤ 1) →
    (ofBitsFrom p bs).testBit 0 = decide (bs.getD (16 - p) 0 = 1) := by
  intro bs
  induction bs with
  | nil => intro p _ _; simp [ofBitsFrom]
  | cons b rest ih =>
    intro p hlen hb
    have hb1 : b ≤ 1 := hb b (List.mem_cons_self b rest)
    have hrest : ∀ x ∈ rest, x ≤ 1 := fun x hx => hb x (List.mem_cons_of_mem b hx)
    simp only [ofBitsFrom, Nat.testBit_or]
    simp only [List.length_cons] at hlen
    by_cases hp : p = 16
    · subst hp
      have hre : rest = [] := by
        have : rest.length = 0 := by omega
        exact List.length_eq_zero.mp this
      subst hre
      simp only [ofBitsFrom, Nat.testBit_zero]
      have hb01 : b = 0 ∨ b = 1 := by omega
      rcases hb01 with h | h <;> subst h <;> decide
    · have hplt : p < 16 := by omega
      have h1 : (b <<< (16 - p)).testBit 0 = false := by
        rw [Nat.testBit_shiftLeft]
        have : ¬(16 - p ≤ 0) := by omega
        simp [this]
      rw [h1, Bool.false_or]
      rw [ih (p + 1) (by omega) hrest]
      have hg : (b :: rest).getD (16 - p) 0 = rest.getD (16 - (p + 1)) 0 := by
        have h16 : 16 - p = (16 - (p + 1)) + 1 := by omega
        rw [h16]
        rfl
      rw [hg]

theorem processWrites_bound : ∀ (buf : List Nat) (e : Nat) (st : Bool) (i : Nat),
    e % 2 = 0 → e ≤ 30 →
    (processWrites buf e st i).2.length ≤ 16 - e / 2 ∧
      ∀ q ∈ (processWrites buf e st i).2, q.1 < i + (16 - e / 2) := by
  intro buf
  induction buf with
  | nil => intro e st i _ _; simp [processWrites]
  | cons w rest ih =>
    intro e st i he hle
    simp only [processWrites]
    by_cases hc : cmdOf w = 5
    · simp only [if_pos hc]
      by_cases hs : st = true ∨ addrOf w = 0
      · simp only [if_pos hs]
        by_cases ha : addrOf w ≠ e
        · simp only [if_pos ha]
          simp
        · simp only [if_neg ha]
          by_cases h30 : addrOf w = 30
          · simp only [if_pos h30]
            have he30 : e = 30 := by omega
            subst he30
            constructor
            · simp
            · intro q hq
              simp only [List.mem_singleton] at hq
              subst hq
              simp
          · simp only [if_neg h30]
            have hne : addrOf w = e := by omega
            have he30 : e ≠ 30 := by rw [← hne]; exact h30
            have := ih (e + 2) true (i + 1) (by omega) (by omega)
            obtain ⟨hl, hm⟩ := this
            constructor
            · simp only [List.length_cons]
              omega
            · intro q hq
              simp only [List.mem_cons] at hq
              rcases hq with hq | hq
              · subst hq
                simp only
                omega
              · have := hm q hq
                omega
      · simp only [if_neg hs]
        exact ih e st i he hle
    · simp only [if_neg hc]
      exact ih e st i he hle

/-- C1: for every frame-buffer state that, scanning slots in order, contains
sixteen command-5 words whose addresses are exactly 0, 2, ..., 30 in
increasing order, with no other command-5 word between the address-0 word
and the address-30 word (and no command-5 word with address 0 before the
run, which pins down "the address-0 word"), process_data_buffer returns
true and fills data_buffer slots 0..15 in address order with the words'
low data bytes masked with 0x77 for addresses up to 14 and 0xFF for
addresses of 16 and above (the masking is recorded by the Run relation via
maskData). -/
theorem C1_valid_sequence_extraction (pre tl ms db : List Nat)
    (hpre : ∀ w ∈ pre, ¬(cmdOf w = 5 ∧ addrOf w = 0))
    (hrun : Run 0 tl ms) (hdb : db.length = 16) :
    processWrites (pre ++ tl) 0 false 0 = (true, withIdx 0 ms) ∧
    process_data_buffer (pre ++ tl) db = (true, ms) := by
  have h1 : processWrites (pre ++ tl) 0 false 0 = (true, withIdx 0 ms) := by
    rw [processWrites_preSkip pre tl 0 0 hpre]
    exact processWrites_run_start hrun 0
  refine ⟨h1, ?_⟩
  have hms : ms.length = 16 := by
    have := (run_addr_even_le hrun).2.2
    simpa using this
  simp only [process_data_buffer, h1]
  have happ := applyWrites_withIdx ms [] db (by omega)
  simp only [List.nil_append, List.length_nil] at happ
  rw [happ, hms, ← hdb, List.drop_length]
  simp

/-- Witness for C1 at a concrete frame buffer: one non-command word followed
by the sixteen packets of bufDoc. -/
theorem C1_valid_sequence_extraction_witness :
    processWrites ([7] ++ bufDoc) 0 false 0 = (true, withIdx 0 msDoc) ∧
    process_data_buffer ([7] ++ bufDoc) dbZero = (true, msDoc) :=
  C1_valid_sequence_extraction [7] bufDoc msDoc dbZero (by decide)
    (runMs_sound bufDoc 0 msDoc (by decide)) (by decide)

/-- C5: for every frame-buffer state containing no word whose command field
is 5 and whose address field is 0, process_data_buffer returns false and
the four accessors return their sentinels (-1.0 for the float quantities,
-1 for energy). -/
theorem C5_missing_addr0_sentinels (buf db : List Nat)
    (h : ∀ w ∈ buf, ¬(cmdOf w = 5 ∧ addrOf w = 0)) :
    (process_data_buffer buf db).1 = false ∧
    get_voltage buf db = -1 ∧ get_current buf db = -1 ∧
    get_power buf db = -1 ∧ get_energy buf db = -1 := by
  have hw : processWrites buf 0 false 0 = (false, []) := by
    have := processWrites_preSkip buf [] 0 0 h
    rw [List.append_nil] at this
    rw [this]
    rfl
  refine ⟨?_, ?_, ?_, ?_, ?_⟩
  · simp [process_data_buffer, hw]
  · simp [get_voltage, process_data_buffer, hw]
  · simp [get_current, process_data_buffer, hw]
  · simp [get_power, process_data_buffer, hw]
  · simp [get_energy, process_data_buffer, hw]

/-- Witness for C5 at the all-zero frame buffer. -/
theorem C5_missing_addr0_sentinels_witness :
    (process_data_buffer (List.replicate 32 0) dbZero).1 = false ∧
    get_voltage (List.replicate 32 0) dbZero = -1 ∧
    get_current (List.replicate 32 0) dbZero = -1 ∧
    get_power (List.replicate 32 0) dbZero = -1 ∧
    get_energy (List.replicate 32 0) dbZero = -1 :=
  C5_missing_addr0_sentinels (List.replicate 32 0) dbZero (by decide)

/-- C6: whenever the scan has started (the first command-5 address-0 word
was seen inside the prefix p, recorded by scanMid returning data_start =
true) and the next word w is a command-5 word whose address differs from
the running expected address, the scan stops at w and returns false with
exactly the writes made before w, no matter what the remaining slots
contain. -/
theorem C6_mismatch_abort (p : List Nat) (w : Nat) (e i : Nat)
    (ws : List (Nat × Nat))
    (hmid : scanMid p 0 false 0 = some (e, true, i, ws))
    (hc : cmdOf w = 5) (ha : addrOf w ≠ e) :
    ∀ (rest rest' db : List Nat),
      processWrites (p ++ w :: rest) 0 false 0 = (false, ws) ∧
      process_data_buffer (p ++ w :: rest) db
        = process_data_buffer (p ++ w :: rest') db ∧
      (process_data_buffer (p ++ w :: rest) db).1 = false := by
  intro rest rest' db
  have key : ∀ (q : List Nat), processWrites (p ++ w :: q) 0 false 0 = (false, ws) := by
    intro q
    rw [processWrites_append_some p 0 false 0 e true i ws (w :: q) hmid]
    simp only [processWrites, if_pos hc, if_pos (Or.inl rfl), if_pos ha]
    simp
  refine ⟨key rest, ?_, ?_⟩
  · simp only [process_data_buffer, key rest, key rest']
  · simp [process_data_buffer, key rest]

/-- Witness for C6: after accepting the address-0 packet, a command-5 word
with address 4 appears where address 2 is expected. -/
theorem C6_mismatch_abort_witness :
    processWrites ([word5 0 5] ++ word5 4 7 :: [1, 2]) 0 false 0 = (false, [(0, 5)]) ∧
    process_data_buffer ([word5 0 5] ++ word5 4 7 :: [1, 2]) dbZero
      = process_data_buffer ([word5 0 5] ++ word5 4 7 :: [3]) dbZero ∧
    (process_data_buffer ([word5 0 5] ++ word5 4 7 :: [1, 2]) dbZero).1 = false :=
  C6_mismatch_abort [word5 0 5] (word5 4 7) 2 1 [(0, 5)] (by decide) (by decide)
    (by decide) [1, 2] [3] dbZero

/-- C9: the scan outcome depends only on the scanned prefix.  First part:
if the scan breaks inside the prefix p (scanMid p = none, i.e. an address
mismatch or the accepted address-30 packet occurs in p), then any two frame
buffers extending p give the identical success flag, the identical sequence
of data_buffer writes, and the identical final data_buffer.  Second part
(the exhaustion case m = 31): two buffers of equal length agreeing on every
scanned slot give identical results. -/
theorem C9_prefix_determinism :
    (∀ (p rest rest' db : List Nat), scanMid p 0 false 0 = none →
      processWrites (p ++ rest) 0 false 0 = processWrites (p ++ rest') 0 false 0 ∧
      process_data_buffer (p ++ rest) db = process_data_buffer (p ++ rest') db) ∧
    (∀ (b b' db : List Nat), b.length = b'.length →
      (∀ k, k < b.length → b.getD k 0 = b'.getD k 0) →
      process_data_buffer b db = process_data_buffer b' db) := by
  constructor
  · intro p rest rest' db hstop
    have h1 := processWrites_append_none p 0 false 0 rest hstop
    have h2 := processWrites_append_none p 0 false 0 rest' hstop
    refine ⟨h1.trans h2.symm, ?_⟩
    simp only [process_data_buffer, h1, h2]
  · intro b b' db hlen hag
    have hbb : b = b' := by
      apply List.ext_getElem hlen
      intro i h1 h2
      have := hag i h1
      rwa [List.getD_eq_getElem b 0 h1, List.getD_eq_getElem b' 0 h2] at this
    rw [hbb]

/-- Witness for C9: the scan stops at the mismatching second slot of p, so
the differing suffixes [9, 9] and [1] cannot influence the result. -/
theorem C9_prefix_determinism_witness :
    processWrites ([word5 0 5, word5 4 7] ++ [9, 9]) 0 false 0
      = processWrites ([word5 0 5, word5 4 7] ++ [1]) 0 false 0 ∧
    process_data_buffer ([word5 0 5, word5 4 7] ++ [9, 9]) dbZero
      = process_data_buffer ([word5 0 5, word5 4 7] ++ [1]) dbZero ∧
    process_data_buffer [word5 0 5] dbZero = process_data_buffer [word5 0 5] dbZero :=
  ⟨(C9_prefix_determinism.1 [word5 0 5, word5 4 7] [9, 9] [1] dbZero (by decide)).1,
   (C9_prefix_determinism.1 [word5 0 5, word5 4 7] [9, 9] [1] dbZero (by decide)).2,
   C9_prefix_determinism.2 [word5 0 5] [word5 0 5] dbZero rfl (fun k _ => rfl)⟩

/-- C10: for every possible frame-buffer content, process_data_buffer
performs at most 16 data_buffer writes and every write index is below 16,
so the sixteen-element data_buffer array is never indexed out of bounds. -/
theorem C10_write_bounds (buf : List Nat) :
    (processWrites buf 0 false 0).2.length ≤ 16 ∧
    ∀ q ∈ (processWrites buf 0 false 0).2, q.1 < 16 := by
  have h := processWrites_bound buf 0 false 0 (by decide) (by decide)
  simpa using h

/-- Witness for C10 at the full capture bufDoc, whose first write targets
index 0. -/
theorem C10_write_bounds_witness :
    (processWrites bufDoc 0 false 0).2.length ≤ 16 ∧ ((0 : Nat), (5 : Nat)).1 < 16 :=
  ⟨(C10_write_bounds bufDoc).1, (C10_write_bounds bufDoc).2 (0, 5) (by decide)⟩

/-- C2 counterexample: on a full 17-edge transaction whose data line is high
on every edge, bit 0 of the captured word IS written (the 17th edge has
read_digit = 16, so the level is shifted by 16 - 16 = 0), contradicting the
claim that bit 0 is never written on a full 17-edge transaction. -/
theorem C2_bit_sampler_counterexample :
    (sampleWord bits17).testBit 0 = true := by decide

/-- C2 amended: during one chip-select interval with data-line levels bits,
the sampler builds the word as the OR of each level shifted left by
(16 - i) (position starting at 0 and advancing by 1 per edge); bit 16 holds
the first sampled level; bit 0 stays absent only while at most 16 edges
occur, and on a full 17-edge transaction bit 0 holds the 17th sampled
level. -/
theorem C2_bit_sampler_amended (bits : List Nat) (hlen : bits.length ≤ 17)
    (hb : ∀ b ∈ bits, b ≤ 1) :
    sampleWord bits = ofBitsFrom 0 bits ∧
    (bits ≠ [] → (sampleWord bits).testBit 16 = decide (bits.getD 0 0 = 1)) ∧
    (bits.length ≤ 16 → (sampleWord bits).testBit 0 = false) ∧
    (bits.length = 17 → (sampleWord bits).testBit 0 = decide (bits.getD 16 0 = 1)) := by
  refine ⟨sampleWord_eq bits, ?_, ?_, ?_⟩
  · intro hne
    cases bits with
    | nil => exact absurd rfl hne
    | cons b rest =>
      have hb1 : b ≤ 1 := hb b (List.mem_cons_self b rest)
      have hrest : ∀ x ∈ rest, x ≤ 1 := fun x hx => hb x (List.mem_cons_of_mem b hx)
      simpa using sampleWord_testBit16 b rest hb1 hrest
  · intro h16
    rw [sampleWord_eq]
    exact ofBitsFrom_testBit_zero bits 0 (by omega)
  · intro h17
    rw [sampleWord_eq]
    have := ofBitsFrom_testBit_zero_full bits 0 (by omega) hb
    simpa using this

/-- Witness for C2 amended at the all-ones 17-edge transaction. -/
theorem C2_bit_sampler_amended_witness :
    sampleWord bits17 = ofBitsFrom 0 bits17 ∧
    (sampleWord bits17).testBit 0 = decide (bits17.getD 16 0 = 1) :=
  ⟨(C2_bit_sampler_amended bits17 (by decide) (by decide)).1,
   (C2_bit_sampler_amended bits17 (by decide) (by decide)).2.2.2 (by decide)⟩

/-- C3 counterexample: a successful extraction whose voltage slots 0..3 hold
exactly the table entries 117, 5, 83, 23 makes get_voltage return 1.23
(digits 0, 1, 2, 3, accumulator 123), not the claimed 10.23: in the
voltage/current table 117 is the pattern of digit 0 and 5 of digit 1. -/
theorem C3_voltage_round_trip_counterexample :
    process_data_buffer bufC3 dbZero = (true, msC3) ∧
    get_voltage bufC3 dbZero = 1.23 ∧
    get_voltage bufC3 dbZero < 10.23 := by
  have h : process_data_buffer bufC3 dbZero = (true, msC3) := by decide
  have hacc : voltAcc msC3 = 123 := by decide
  have hv : get_voltage bufC3 dbZero = 1.23 := by
    simp only [get_voltage, h]
    norm_num [hacc]
  refine ⟨h, hv, ?_⟩
  rw [hv]
  norm_num

/-- C3 amended: when data_buffer slots 0..3 hold the table entries 117, 5,
83, 23 after a successful extraction, get_voltage recovers the decimal
digits 0, 1, 2, 3, accumulating 123 and returning 1.23 volts. -/
theorem C3_voltage_round_trip_amended (buf db d : List Nat)
    (h : process_data_buffer buf db = (true, d))
    (h0 : d.getD 0 0 = 117) (h1 : d.getD 1 0 = 5)
    (h2 : d.getD 2 0 = 83) (h3 : d.getD 3 0 = 23) :
    voltAcc d = 123 ∧ get_voltage buf db = 1.23 := by
  have hacc : voltAcc d = 123 := by
    rw [voltAcc_eq, h0, h1, h2, h3]
    decide
  refine ⟨hacc, ?_⟩
  simp only [get_voltage, h]
  norm_num [hacc]

/-- Witness for C3 amended at the concrete capture bufC3. -/
theorem C3_voltage_round_trip_amended_witness :
    voltAcc msC3 = 123 ∧ get_voltage bufC3 dbZero = 1.23 :=
  C3_voltage_round_trip_amended bufC3 dbZero msC3 (by decide) (by decide)
    (by decide) (by decide) (by decide)

/-- C4 counterexample: no frame-buffer state makes get_voltage return
120.50, because the voltage accumulator is a four-digit decimal (at most
9999) divided by 100, hence at most 99.99, and the failure sentinel is -1;
the documented capture of the claim therefore cannot exist. -/
theorem C4_documented_capture_counterexample : voltage_below_120_50 := by
  intro buf db
  simp only [get_voltage]
  split
  · have h1 := voltAcc_le (process_data_buffer buf db).2
    have h2 : ((voltAcc (process_data_buffer buf db).2 : ℚ)) ≤ 9999 := by
      exact_mod_cast h1
    norm_num
    linarith
  · norm_num

/-- C4 amended: there is a full command-5 capture with addresses 0 through
30 on which the four accessors simultaneously return 12.05 volts, 1.23
amps, 45.6 watts and 789 watt-hours (the claimed 120.50 volts is out of
range, so the voltage digits 1, 2, 0, 5 decode to 12.05). -/
theorem C4_documented_capture_amended :
    process_data_buffer bufDoc dbZero = (true, msDoc) ∧
    get_voltage bufDoc dbZero = 12.05 ∧
    get_current bufDoc dbZero = 1.23 ∧
    get_power bufDoc dbZero = 45.6 ∧
    get_energy bufDoc dbZero = 789 := by
  have h : process_data_buffer bufDoc dbZero = (true, msDoc) := by decide
  refine ⟨h, ?_, ?_, ?_, ?_⟩
  · have hacc : voltAcc msDoc = 1205 := by decide
    simp only [get_voltage, h]
    norm_num [hacc]
  · have hacc : currAcc msDoc = 123 := by decide
    simp only [get_current, h]
    norm_num [hacc]
  · have hacc : powAcc msDoc = 456 := by decide
    have hflag : msDoc.getD 10 0 &&& 0x01 = 1 := by decide
    simp only [get_power, h]
    norm_num [hacc, hflag]
    decide
  · decide

theorem digitOf_eq_zero_of_not_mem (lut : List Nat) (v : Nat)
    (hlen : lut.length = 10) (hv : v ∉ lut) : digitOf lut v = 0 := by
  apply List.sum_eq_zero
  intro x hx
  simp only [List.mem_map, List.mem_range] at hx
  obtain ⟨j, hj, hxe⟩ := hx
  rw [← hxe]
  have hjl : j < lut.length := by omega
  have hmem : lut.getD j 0 ∈ lut := by
    rw [List.getD_eq_getElem lut 0 hjl]
    exact List.getElem_mem hjl
  have hne : v ≠ lut.getD j 0 := fun he => hv (he ▸ hmem)
  rw [if_neg hne]

theorem get_voltage_eq (buf db d : List Nat)
    (h : process_data_buffer buf db = (true, d)) :
    get_voltage buf db = (voltAcc d : ℚ) / 100 := by
  unfold get_voltage
  rw [h]
  rfl

theorem get_current_eq (buf db d : List Nat)
    (h : process_data_buffer buf db = (true, d)) :
    get_current buf db = (currAcc d : ℚ) / 100 := by
  unfold get_current
  rw [h]
  rfl

theorem get_power_eq (buf db d : List Nat)
    (h : process_data_buffer buf db = (true, d)) :
    get_power buf db
      = if d.getD 10 0 &&& 0x01 ≠ 0 then (powAcc d : ℚ) / 10 else (powAcc d : ℚ) := by
  unfold get_power
  rw [h]
  rfl

theorem get_energy_eq (buf db d : List Nat)
    (h : process_data_buffer buf db = (true, d)) :
    get_energy buf db
      = ((if d.getD 15 0 &&& 0x01 ≠ 0 then enAcc d * 1000 else enAcc d : Nat) : Int) := by
  unfold get_energy
  rw [h]
  rfl

/-- C7: the unit-flag bits scale but never alter digit recognition.  For two
successfully extracted data_buffer states whose sixteen slots agree except
in bit 0 of slot 10, get_power on the bit0=1 state is exactly one tenth of
get_power on the bit0=0 state; for two states agreeing except in bit 0 of
slot 15, get_energy on the bit0=1 state is exactly 1000 times get_energy on
the bit0=0 state (digit matching compares the slot value shifted right by
one, so the flag bit is excluded from the table comparison). -/
theorem C7_flag_scaling :
    (∀ (buf₁ db₁ buf₂ db₂ d₁ d₂ : List Nat),
      process_data_buffer buf₁ db₁ = (true, d₁) →
      process_data_buffer buf₂ db₂ = (true, d₂) →
      (∀ k, k < 16 → k ≠ 10 → d₁.getD k 0 = d₂.getD k 0) →
      d₁.getD 10 0 >>> 1 = d₂.getD 10 0 >>> 1 →
      d₁.getD 10 0 &&& 1 = 0 →
      d₂.getD 10 0 &&& 1 = 1 →
      get_power buf₂ db₂ = get_power buf₁ db₁ / 10) ∧
    (∀ (buf₁ db₁ buf₂ db₂ d₁ d₂ : List Nat),
      process_data_buffer buf₁ db₁ = (true, d₁) →
      process_data_buffer buf₂ db₂ = (true, d₂) →
      (∀ k, k < 16 → k ≠ 15 → d₁.getD k 0 = d₂.getD k 0) →
      d₁.getD 15 0 >>> 1 = d₂.getD 15 0 >>> 1 →
      d₁.getD 15 0 &&& 1 = 0 →
      d₂.getD 15 0 &&& 1 = 1 →
      get_energy buf₂ db₂ = 1000 * get_energy buf₁ db₁) := by
  constructor
  · intro buf₁ db₁ buf₂ db₂ d₁ d₂ h₁ h₂ hag h10 f₁ f₂
    have hacc : powAcc d₂ = powAcc d₁ := by
      rw [powAcc_eq, powAcc_eq]
      rw [← hag 8 (by omega) (by omega), ← hag 9 (by omega) (by omega),
        ← hag 11 (by omega) (by omega), ← h10]
    have hc₂ : d₂.getD 10 0 &&& 0x01 ≠ 0 := by rw [f₂]; norm_num
    have hc₁ : ¬(d₁.getD 10 0 &&& 0x01 ≠ 0) := by rw [f₁]; norm_num
    rw [get_power_eq buf₂ db₂ d₂ h₂, get_power_eq buf₁ db₁ d₁ h₁,
      if_pos hc₂, if_neg hc₁, hacc]
  · intro buf₁ db₁ buf₂ db₂ d₁ d₂ h₁ h₂ hag h15 f₁ f₂
    have hacc : enAcc d₂ = enAcc d₁ := by
      rw [enAcc_eq, enAcc_eq]
      rw [← hag 12 (by omega) (by omega), ← hag 13 (by omega) (by omega),
        ← hag 14 (by omega) (by omega), ← h15]
    have hc₂ : d₂.getD 15 0 &&& 0x01 ≠ 0 := by rw [f₂]; norm_num
    have hc₁ : ¬(d₁.getD 15 0 &&& 0x01 ≠ 0) := by rw [f₁]; norm_num
    rw [get_energy_eq buf₂ db₂ d₂ h₂, get_energy_eq buf₁ db₁ d₁ h₁,
      if_pos hc₂, if_neg hc₁, hacc]
    push_cast
    ring

/-- Witness for C7 at concrete captures: bufP0 and bufDoc differ only in the
slot-10 flag bit and bufDoc and bufE1 differ only in the slot-15 flag
bit. -/
theorem C7_flag_scaling_witness :
    get_power bufDoc dbZero = get_power bufP0 dbZero / 10 ∧
    get_energy bufE1 dbZero = 1000 * get_energy bufDoc dbZero :=
  ⟨C7_flag_scaling.1 bufP0 dbZero bufDoc dbZero msP0 msDoc (by decide) (by decide)
      (by decide) (by decide) (by decide) (by decide),
   C7_flag_scaling.2 bufDoc dbZero bufE1 dbZero msDoc msE1 (by decide) (by decide)
      (by decide) (by decide) (by decide) (by decide)⟩

/-- C8: for every successfully extracted data_buffer state, a slot value (or
shifted slot value for power/energy) matching none of the ten entries of
its segment table contributes exactly 0 to its accumulator (its digitOf
term in the accumulator decomposition is 0), and every accessor still
returns a non-sentinel value: an unrecognized digit pattern is never
surfaced as an error. -/
theorem C8_unmatched_digit_ignored (buf db d : List Nat)
    (h : process_data_buffer buf db = (true, d)) :
    (∀ v, v ∉ data_digit_lut_1 → digitOf data_digit_lut_1 v = 0) ∧
    (∀ v, v ∉ data_digit_lut_2 → digitOf data_digit_lut_2 v = 0) ∧
    voltAcc d = digitOf data_digit_lut_1 (d.getD 0 0) * 1000
      + digitOf data_digit_lut_1 (d.getD 1 0) * 100
      + digitOf data_digit_lut_1 (d.getD 2 0) * 10
      + digitOf data_digit_lut_1 (d.getD 3 0) ∧
    currAcc d = digitOf data_digit_lut_1 (d.getD 4 0) * 1000
      + digitOf data_digit_lut_1 (d.getD 5 0) * 100
      + digitOf data_digit_lut_1 (d.getD 6 0) * 10
      + digitOf data_digit_lut_1 (d.getD 7 0) ∧
    powAcc d = digitOf data_digit_lut_2 (d.getD 8 0 >>> 1) * 1000
      + digitOf data_digit_lut_2 (d.getD 9 0 >>> 1) * 100
      + digitOf data_digit_lut_2 (d.getD 10 0 >>> 1) * 10
      + digitOf data_digit_lut_2 (d.getD 11 0 >>> 1) ∧
    enAcc d = digitOf data_digit_lut_2 (d.getD 12 0 >>> 1) * 1000
      + digitOf data_digit_lut_2 (d.getD 13 0 >>> 1) * 100
      + digitOf data_digit_lut_2 (d.getD 14 0 >>> 1) * 10
      + digitOf data_digit_lut_2 (d.getD 15 0 >>> 1) ∧
    get_voltage buf db ≠ -1 ∧ get_current buf db ≠ -1 ∧
    get_power buf db ≠ -1 ∧ get_energy buf db ≠ -1 := by
  refine ⟨fun v hv => digitOf_eq_zero_of_not_mem _ v rfl hv,
    fun v hv => digitOf_eq_zero_of_not_mem _ v rfl hv,
    voltAcc_eq d, currAcc_eq d, powAcc_eq d, enAcc_eq d, ?_, ?_, ?_, ?_⟩
  · rw [get_voltage_eq buf db d h]
    intro he
    have h0 : (0 : ℚ) ≤ (voltAcc d : ℚ) / 100 := by positivity
    rw [he] at h0
    norm_num at h0
  · rw [get_current_eq buf db d h]
    intro he
    have h0 : (0 : ℚ) ≤ (currAcc d : ℚ) / 100 := by positivity
    rw [he] at h0
    norm_num at h0
  · rw [get_power_eq buf db d h]
    intro he
    by_cases hf : d.getD 10 0 &&& 0x01 ≠ 0
    · rw [if_pos hf] at he
      have h0 : (0 : ℚ) ≤ (powAcc d : ℚ) / 10 := by positivity
      rw [he] at h0
      norm_num at h0
    · rw [if_neg hf] at he
      have h0 : (0 : ℚ) ≤ (powAcc d : ℚ) := by positivity
      rw [he] at h0
      norm_num at h0
  · rw [get_energy_eq buf db d h]
    intro he
    by_cases hf : d.getD 15 0 &&& 0x01 ≠ 0
    · rw [if_pos hf] at he
      omega
    · rw [if_neg hf] at he
      omega

/-- Witness for C8 at bufC3, whose slots 4..15 hold the value 0, which
matches no entry of either table. -/
theorem C8_unmatched_digit_ignored_witness :
    digitOf data_digit_lut_1 (msC3.getD 4 0) = 0 ∧
    digitOf data_digit_lut_2 (msC3.getD 8 0 >>> 1) = 0 ∧
    voltAcc msC3 = digitOf data_digit_lut_1 (msC3.getD 0 0) * 1000
      + digitOf data_digit_lut_1 (msC3.getD 1 0) * 100
      + digitOf data_digit_lut_1 (msC3.getD 2 0) * 10
      + digitOf data_digit_lut_1 (msC3.getD 3 0) :=
  ⟨(C8_unmatched_digit_ignored bufC3 dbZero msC3 (by decide)).1
      (msC3.getD 4 0) (by decide),
   (C8_unmatched_digit_ignored bufC3 dbZero msC3 (by decide)).2.1
      (msC3.getD 8 0 >>> 1) (by decide),
   (C8_unmatched_digit_ignored bufC3 dbZero msC3 (by decide)).2.2.1⟩

end PowerMeter
